import Mathlib

/-!
Verification development for the serve-npm-tarballs tool.

The development shallowly embeds the relevant parts of the program:

* the bounded-concurrency runner `promiseAllConcurrent` (a small-step event
  machine over explicit completion schedules),
* the tarball entry extractor `extractFileFromTarball`,
* the registry orchestration `runWithServer` / `runVerdaccio` (as an event
  trace), the package-rule configuration `finalPackageConfig` (with
  JavaScript object-assignment semantics), and
* the daemon-mode environment relay (`npmConfigVars` and the parent's
  standard-output message).

Theorems about these definitions settle the specified properties.
-/

namespace ServeNpmTarballs

/-! ## Bounded Concurrency Runner

The source function:

```js
function promiseAllConcurrent(thunks, n) {
  n = n || Math.max(2, os.cpus().length / 2);
  let initial = thunks.slice(0, n);
  let resolved = new Array();
  let next = initial.length;
  return new Promise(ok => {
    initial.forEach(x => {
      let res = x();
      resolved.push(res);
      res.then(y => { runNext(); return y; })
    })
    function runNext() {
      if (next === thunks.length) {
        ok(Promise.all(resolved));
      } else {
        resolved.push(thunks[next++]().then(x => { runNext(); return x; }));
      }
    }
  });
}
```

We model each deferred operation by its eventual settlement only: `some v`
means the promise fulfills with value `v`, `none` means it rejects.  The
nondeterministic completion order of in-flight promises is an explicit
schedule: a list of thunk indices; settling index `i` runs exactly what the
code attaches to promise `i` (for a fulfillment, the continuation calls
`runNext`; a rejection has no continuation attached, since `.then` was given
only a fulfillment handler).  A schedule entry that names an index that is
not in flight settles nothing and leaves the state unchanged.
-/

/-- The eventual settlement of each deferred operation, in input order:
`some v` fulfills with `v`, `none` rejects. -/
abbrev Thunks (A : Type) := List (Option A)

/-- Machine state of one `promiseAllConcurrent` run.  `next` is the cursor
over the thunk list, `resolved` is the list of launched thunk indices in
launch order (the `resolved` array of promises), `inflight` the launched but
not yet settled indices, `fulfilled` and `rejected` the settled ones in
completion order, and `okCalled` records whether `ok(Promise.all(resolved))`
has run. -/
structure PoolState where
  next : ℕ
  resolved : List ℕ
  inflight : List ℕ
  fulfilled : List ℕ
  rejected : List ℕ
  okCalled : Bool
deriving Repr, DecidableEq

/-- Initial state: the first `min L N` thunks are launched at once
(`thunks.slice(0, n)` followed by the `forEach` that fires them). -/
def poolInit (N L : ℕ) : PoolState :=
  { next := min L N
    resolved := List.range (min L N)
    inflight := List.range (min L N)
    fulfilled := []
    rejected := []
    okCalled := false }

/-- The `runNext` closure: at the end of the list it resolves the outer
promise with `Promise.all(resolved)`; otherwise it launches thunk `next`
(appending it to `resolved` and to the in-flight set) and advances the
cursor. -/
def runNext (N : ℕ) (s : PoolState) : PoolState :=
  if s.next = N then { s with okCalled := true }
  else { s with
    next := s.next + 1
    resolved := s.resolved ++ [s.next]
    inflight := s.inflight ++ [s.next] }

/-- Settle in-flight thunk `i`.  A fulfillment runs the attached
continuation, which calls `runNext`; a rejection runs nothing further
(`.then` received no rejection handler).  Indices that are not in flight
settle nothing. -/
def settle {A : Type} (thunks : Thunks A) (s : PoolState) (i : ℕ) : PoolState :=
  if i ∈ s.inflight then
    match thunks.getD i none with
    | some _ =>
        runNext thunks.length
          { s with inflight := s.inflight.erase i, fulfilled := s.fulfilled ++ [i] }
    | none => { s with inflight := s.inflight.erase i, rejected := s.rejected ++ [i] }
  else s

/-- Run the machine with effective concurrency limit `L` under completion
schedule `sched`. -/
def runPool {A : Type} (thunks : Thunks A) (L : ℕ) (sched : List ℕ) : PoolState :=
  sched.foldl (settle thunks) (poolInit thunks.length L)

/-- Observable settlement of the promise returned by `promiseAllConcurrent`
at state `s`: `none` while it is pending, `some none` once it has rejected,
`some (some vs)` once it has fulfilled with the value list `vs`.  The outer
promise is resolved with `Promise.all(resolved)` when `ok` runs, so it
settles only as `Promise.all` does: it rejects as soon as any promise in
`resolved` has rejected, and fulfills only once every promise in `resolved`
has fulfilled, with their values in the order of the `resolved` array. -/
def poolResult {A : Type} (thunks : Thunks A) (s : PoolState) : Option (Option (List A)) :=
  if s.okCalled then
    if s.rejected = [] then
      if s.resolved.all (fun i => i ∈ s.fulfilled) then
        some (some ((s.resolved.map (fun i => thunks.getD i none)).reduceOption))
      else none
    else some none
  else none

/-- Default concurrency: `Math.max(2, os.cpus().length / 2)`.  JavaScript
number division is exact here, so the value is the rational
`max 2 (cpus / 2)`. -/
def defaultConcurrency (cpus : ℕ) : ℚ := max 2 ((cpus : ℚ) / 2)

/-- The `n = n || default` line: an absent or zero (falsy) limit is replaced
by the default. -/
def resolveLimit (n : Option ℚ) (cpus : ℕ) : ℚ :=
  match n with
  | some v => if v = 0 then defaultConcurrency cpus else v
  | none => defaultConcurrency cpus

/-- Entry point of the runner: resolve the limit, then run the machine.
`thunks.slice(0, n)` truncates a fractional bound toward zero, which for the
nonnegative limits arising here is `Nat.floor`. -/
def promiseAllConcurrent {A : Type} (thunks : Thunks A) (n : Option ℚ) (cpus : ℕ)
    (sched : List ℕ) : PoolState :=
  runPool thunks ⌊resolveLimit n cpus⌋₊ sched

/-- All-success thunk list delivering the values `vals`. -/
def thunksOf {A : Type} (vals : List A) : Thunks A := vals.map some

/-- The runner's promise stays pending under every completion schedule. -/
def neverDelivers {A : Type} (thunks : Thunks A) (L : ℕ) : Prop :=
  ∀ sched : List ℕ, poolResult thunks (runPool thunks L sched) = none

/-- Order-preserving delivery for an all-success run: under every completion
schedule, whatever the runner delivers is the full value list in input
order, and it delivers only once every operation has settled (is in
`fulfilled`); moreover under every schedule that drains the in-flight set,
the runner has actually delivered that list. -/
def OrderedDeliverySpec {A : Type} (vals : List A) (L : ℕ) : Prop :=
  (∀ (sched : List ℕ) (r : Option (List A)),
      poolResult (thunksOf vals) (runPool (thunksOf vals) L sched) = some r →
        r = some vals ∧
          ∀ i < vals.length, i ∈ (runPool (thunksOf vals) L sched).fulfilled) ∧
  (∀ sched : List ℕ, (runPool (thunksOf vals) L sched).inflight = [] →
      poolResult (thunksOf vals) (runPool (thunksOf vals) L sched) = some (some vals))

/-! ## Tarball Metadata Extractor

`extractFileFromTarball` scans the archive entry by entry and accumulates the
data chunks of every entry whose path equals the requested path; the result
is the concatenation of what was accumulated (empty when nothing matched).
We model a successfully opened and parsed archive as its entry list. -/

/-- One entry of a parsed tar archive: its path and its data bytes. -/
structure TarEntry where
  path : String
  data : List UInt8
deriving Repr, DecidableEq

/-- Scan the entries in order; for each entry whose path matches, append its
bytes to the accumulated output (`entry.on('data', c => data.push(c))`),
then return the concatenation (`Buffer.concat(data)`). -/
def extractFileFromTarball (entries : List TarEntry) (filePath : String) : List UInt8 :=
  entries.foldr (fun e acc => if e.path == filePath then e.data ++ acc else acc) []

/-- Bytes of a tiny `package/package.json` entry (the two characters of an
empty JSON object). -/
def demoPackageJsonBytes : List UInt8 := [0x7b, 0x7d]

/-- Bytes of a tiny `package/index.js` entry. -/
def demoIndexBytes : List UInt8 := [0x3b, 0x0a]

/-- A two-entry demonstration archive. -/
def demoArchive : List TarEntry :=
  [⟨"package/package.json", demoPackageJsonBytes⟩, ⟨"package/index.js", demoIndexBytes⟩]

/-! ## Package rules and the verdaccio configurations -/

/-- One per-mask package-access rule of the registry configuration. -/
structure PackageRule where
  access : String
  publish : String
  proxy : Option String
deriving Repr, DecidableEq

/-- The rule used both for the publish-phase catch-all and for every hidden
mask: publish/access for everyone and, notably, no proxy entry. -/
def allOpenNoProxy : PackageRule := ⟨"$all", "$all", none⟩

/-- The serve-phase catch-all rule, which does proxy to the upstream. -/
def catchAllProxyRule : PackageRule := ⟨"$all", "$all", some "npmjs"⟩

/-- The publish-phase package configuration: a single catch-all rule with no
proxy entry. -/
def packagesWithoutUpstream : List (String × PackageRule) := [("**", allOpenNoProxy)]

/-- JavaScript object-assignment semantics for string-keyed objects: an
assignment to an existing key replaces its value in place (key order is
preserved); assignment to a fresh key appends it. -/
def objSet : List (String × PackageRule) → String → PackageRule → List (String × PackageRule)
  | [], k, v => [(k, v)]
  | (k', v') :: rest, k, v =>
      if k' = k then (k, v) :: rest else (k', v') :: objSet rest k v

/-- Key order of a JavaScript object. -/
def objKeys (o : List (String × PackageRule)) : List String := o.map Prod.fst

/-- Property read of a JavaScript object. -/
def getProp (o : List (String × PackageRule)) (k : String) : Option PackageRule :=
  (o.find? (fun kv => kv.1 == k)).map Prod.snd

/-- The serve-phase package configuration: one no-proxy rule per mask to
hide, assigned in order, and then the catch-all proxy rule assigned to the
mask `**` last. -/
def finalPackageConfig (packagesToHide : List String) : List (String × PackageRule) :=
  objSet (packagesToHide.foldl (fun o mask => objSet o mask allOpenNoProxy) []) "**"
    catchAllProxyRule

/-- The parsed manifest of a tarball; only the package name is consumed by
the orchestrator. -/
structure PackageJson where
  name : String
deriving Repr, DecidableEq

/-- A successfully read tarball: its absolute file path and its parsed
manifest. -/
structure TarballInfo where
  tarballFile : String
  packageJson : PackageJson
deriving Repr, DecidableEq

/-- One log sink of the registry configuration. -/
structure LogSink where
  kind : String
  path : Option String
  format : String
  level : String
deriving Repr, DecidableEq

/-- The registry configuration value built by `makeVerdaccioConfig`. -/
structure VerdaccioConfig where
  storage : String
  uplinks : List (String × String)
  maxBodySize : String
  allowOffline : Bool
  logs : List LogSink
  packages : List (String × PackageRule)
deriving Repr, DecidableEq

/-- `makeVerdaccioConfig`: fixed storage, single upstream definition, and
log sinks derived from the `--log` and `--verbose` options; only the package
rules differ between the two phases. -/
def makeVerdaccioConfig (tempDir : String) (logFile : Option String) (verbose : Bool)
    (logLevel : String) (packages : List (String × PackageRule)) : VerdaccioConfig :=
  { storage := tempDir
    uplinks := [("npmjs", "https://registry.npmjs.org")]
    maxBodySize := "100mb"
    allowOffline := true
    logs :=
      (match logFile with
        | some f => [⟨"file", some f, "pretty", logLevel⟩]
        | none => []) ++
      (if verbose then [⟨"stderr", none, "pretty", logLevel⟩] else [])
    packages := packages }

/-! ## Orchestration trace

`runVerdaccio` starts one server lifecycle: it listens, runs the given block,
and closes the listener before resolving — also on the error path, where the
rejection `ko(e)` is recorded first but `webServer.close()` still runs before
the callback returns.  `runWithServer` first runs the publish-phase lifecycle
(only when at least one tarball was read), awaiting it completely, and then
runs the serve-phase lifecycle.  A publish-phase failure propagates to the
surrounding catch, so the serve phase is then never started.  (If the publish
step neither resolves nor rejects, the trace simply ends inside the first
lifecycle, which only removes events from the modelled trace.) -/

/-- Events of one orchestrator run. -/
inductive OrchEvent where
  | listen (config : VerdaccioConfig) (port : ℕ)
  | publishTarball (tarballFile : String)
  | runAction
  | close (config : VerdaccioConfig) (port : ℕ)
deriving Repr, DecidableEq

/-- Whether an event binds a registry listener. -/
def isListen : OrchEvent → Bool
  | .listen _ _ => true
  | _ => false

/-- Whether an event closes a registry listener. -/
def isCloseEv : OrchEvent → Bool
  | .close _ _ => true
  | _ => false

/-- Whether an event touches the registry listener at all. -/
def regEvent (e : OrchEvent) : Bool := isListen e || isCloseEv e

/-- Trace of one `runVerdaccio` lifecycle around the events of its block. -/
def runVerdaccioTrace (config : VerdaccioConfig) (port : ℕ) (body : List OrchEvent) :
    List OrchEvent :=
  [.listen config port] ++ body ++ [.close config port]

/-- The publish-phase block: one publish per collected tarball (the runner
interleaves them, but all of them happen strictly between the listen and the
close of the publish-phase lifecycle). -/
def publishPhaseBody (tarballs : List TarballInfo) : List OrchEvent :=
  tarballs.map (fun t => .publishTarball t.tarballFile)

/-- The set of masks to hide: user-supplied masks, plus every successfully
read package name when `--hide-tarballs` is set. -/
def packagesToHideOf (hideUpstream : List String) (hideTarballs : Bool)
    (tarballs : List TarballInfo) : List String :=
  hideUpstream ++ (if hideTarballs then tarballs.map (fun t => t.packageJson.name) else [])

/-- Event trace of `runWithServer`: publish-phase lifecycle only when the
tarball list is non-empty (and skipping the serve phase when the publish
step rejected), then the serve-phase lifecycle running the caller's action.
A failing action still closes the serve listener before the error
propagates, so `actionOk` does not change the emitted events. -/
def runWithServerTrace (tarballs : List TarballInfo) (hideUpstream : List String)
    (hideTarballs : Bool) (port : ℕ) (tempDir : String) (logFile : Option String)
    (verbose : Bool) (logLevel : String) (publishOk actionOk : Bool) : List OrchEvent :=
  let publishConfig := makeVerdaccioConfig tempDir logFile verbose logLevel
    packagesWithoutUpstream
  let serveConfig := makeVerdaccioConfig tempDir logFile verbose logLevel
    (finalPackageConfig (packagesToHideOf hideUpstream hideTarballs tarballs))
  let _ := actionOk
  if 0 < tarballs.length then
    if publishOk then
      runVerdaccioTrace publishConfig port (publishPhaseBody tarballs) ++
        runVerdaccioTrace serveConfig port [.runAction]
    else
      runVerdaccioTrace publishConfig port (publishPhaseBody tarballs)
  else
    runVerdaccioTrace serveConfig port [.runAction]

/-! ## Daemon mode output -/

/-- The registry URL handed to consumers. -/
def registryUrl (port : ℕ) : String := "http://localhost:" ++ toString port ++ "/"

/-- The `npmConfigVars` environment mapping, in the order of the object
literal: the per-run `.npmrc` path, the registry URL, the orchestrator's
process id, and the temporary working directory. -/
def npmConfigVars (port : ℕ) (pid : ℕ) (tempDir : String) : List (String × String) :=
  [("npm_config_userconfig", tempDir ++ "/.npmrc"),
   ("npm_config_registry", registryUrl port),
   ("SERVE_NPM_TARBALLS_PID", toString pid),
   ("SERVE_NPM_TARBALLS_WORKDIR", tempDir)]

/-- One shell assignment, as formatted by the daemon child. -/
def exportLine (kv : String × String) : String := "export " ++ kv.1 ++ "=" ++ kv.2

/-- The single message the daemon child sends to the parent: the export
statements joined with newlines. -/
def bashExports (env : List (String × String)) : String :=
  String.intercalate "\n" (env.map exportLine)

/-- The daemon child's ready message for the standard configuration. -/
def daemonChildMessage (port pid : ℕ) (tempDir : String) : String :=
  bashExports (npmConfigVars port pid tempDir)

/-- What the daemon parent writes to standard output:
`process.stdout.write(childMessage + '\n')`. -/
def daemonParentStdout (port pid : ℕ) (tempDir : String) : String :=
  daemonChildMessage port pid tempDir ++ "\n"

/-- Number of newline-terminated lines of an emitted text. -/
def lineCount (s : String) : ℕ := s.data.count '\n'

/-- The actions of the daemon parent branch, in program order. -/
inductive DaemonParentStep where
  | forkChild
  | awaitChildMessage
  | writeStdout (s : String)
  | disconnectChild
  | unrefChild
deriving Repr, DecidableEq

/-- The daemon parent branch: fork the detached child, await its first
message, print it followed by a newline, then disconnect and unref — it
never waits for the child to exit. -/
def daemonParentSteps (port pid : ℕ) (tempDir : String) : List DaemonParentStep :=
  [.forkChild, .awaitChildMessage, .writeStdout (daemonParentStdout port pid tempDir),
   .disconnectChild, .unrefChild]

/-- Invariants of the runner machine, preserved by every settlement step. -/
structure PoolInv {A : Type} (thunks : Thunks A) (L : ℕ) (s : PoolState) : Prop where
  next_le : s.next ≤ thunks.length
  resolved_eq : s.resolved = List.range s.next
  ok_next : s.okCalled = true → s.next = thunks.length
  inflight_lt : ∀ i ∈ s.inflight, i < s.next
  rejected_lt : ∀ i ∈ s.rejected, i < s.next
  rejected_none : ∀ i ∈ s.rejected, thunks.getD i none = none
  count_eq : s.next = s.inflight.length + s.fulfilled.length + s.rejected.length
  notok_count : s.okCalled = false → s.next = min L thunks.length + s.fulfilled.length
  inflight_len : s.inflight.length ≤ L
  cover : ∀ i, i < s.next → i ∈ s.inflight ∨ i ∈ s.fulfilled ∨ i ∈ s.rejected

/-! ## Properties of the runner machine -/

theorem foldl_settle_inv {A : Type} (thunks : Thunks A) (P : PoolState → Prop)
    (hstep : ∀ s i, P s → P (settle thunks s i)) :
    ∀ (sched : List ℕ) (s0 : PoolState), P s0 → P (sched.foldl (settle thunks) s0) := by
  intro sched
  induction sched with
  | nil => intro s0 h0; simpa using h0
  | cons i rest ih =>
      intro s0 h0
      exact ih (settle thunks s0 i) (hstep s0 i h0)

theorem getD_eq_none_of_all_none {A : Type} :
    ∀ (thunks : Thunks A), (∀ o ∈ thunks, o = none) → ∀ i, thunks.getD i none = none
  | [], _, _ => by simp
  | o :: _, h, 0 => by simpa using h o (by simp)
  | _ :: rest, h, (i + 1) => by
      simpa using getD_eq_none_of_all_none rest (fun x hx => h x (by simp [hx])) i

theorem okCalled_false_of_all_none {A : Type} {thunks : Thunks A}
    (h : ∀ o ∈ thunks, o = none) (L : ℕ) (sched : List ℕ) :
    (runPool thunks L sched).okCalled = false := by
  refine foldl_settle_inv thunks (fun s => s.okCalled = false) ?_ sched _ rfl
  intro s i hs
  unfold settle
  split
  · rw [getD_eq_none_of_all_none thunks h i]
    simpa using hs
  · exact hs

theorem poolResult_none_of_not_ok {A : Type} (thunks : Thunks A) {s : PoolState}
    (h : s.okCalled = false) : poolResult thunks s = none := by
  simp [poolResult, h]

/-- Claim C1 (status: code_bug). The specification says that when an
operation fails, the runner still waits for every launched operation to
settle and then delivers a single aggregate failure.  In the code, `runNext`
is attached only as a fulfillment handler, so a rejection never advances the
machine; with a single failing operation (the concrete failing input) no
fulfillment ever occurs, `ok` is never reached, and the returned promise
stays pending forever under every completion schedule and for every
concurrency limit: no failure is ever delivered. -/
theorem failing_op_promise_never_settles (A : Type) (n : Option ℚ) (cpus : ℕ)
    (sched : List ℕ) :
    poolResult [(none : Option A)] (promiseAllConcurrent ([none] : Thunks A) n cpus sched) = none := by
  refine poolResult_none_of_not_ok _ ?_
  exact okCalled_false_of_all_none (by intro o ho; simpa using ho) _ sched

/-- Claim C2 (status: code_bug). The specification says the runner resolves
immediately with an empty result list on empty input, for any limit.  In the
code no initial thunk is launched, so no fulfillment handler ever runs,
`ok` is never called, and the returned promise stays pending forever: under
every completion schedule and every limit (including the default) the
observable result remains `none`. -/
theorem empty_thunks_promise_never_settles (A : Type) (n : Option ℚ) (cpus : ℕ)
    (sched : List ℕ) :
    poolResult ([] : Thunks A) (promiseAllConcurrent ([] : Thunks A) n cpus sched) = none := by
  refine poolResult_none_of_not_ok _ ?_
  exact okCalled_false_of_all_none (by intro o ho; simp at ho) _ sched

theorem poolInv_init {A : Type} (thunks : Thunks A) (L : ℕ) :
    PoolInv thunks L (poolInit thunks.length L) := by
  constructor <;> simp [poolInit]

theorem poolInv_settle {A : Type} (thunks : Thunks A) (L : ℕ) (s : PoolState) (i : ℕ)
    (h : PoolInv thunks L s) : PoolInv thunks L (settle thunks s i) := by
  by_cases hmem : i ∈ s.inflight
  case neg => simpa [settle, hmem] using h
  have hlen1 : 0 < s.inflight.length := List.length_pos_of_mem hmem
  have herase_len : (s.inflight.erase i).length = s.inflight.length - 1 :=
    List.length_erase_of_mem hmem
  have herase_sub : ∀ j ∈ s.inflight.erase i, j ∈ s.inflight :=
    fun j hj => List.mem_of_mem_erase hj
  have hilt : i < s.next := h.inflight_lt i hmem
  unfold settle
  rw [if_pos hmem]
  rcases hget : thunks.getD i none with _ | v
  · -- rejection: no continuation runs
    refine ⟨?_, ?_, ?_, ?_, ?_, ?_, ?_, ?_, ?_, ?_⟩
    · exact h.next_le
    · exact h.resolved_eq
    · exact h.ok_next
    · exact fun j hj => h.inflight_lt j (herase_sub j hj)
    · show ∀ j ∈ s.rejected ++ [i], j < s.next
      intro j hj
      rcases List.mem_append.mp hj with hj | hj
      · exact h.rejected_lt j hj
      · rw [List.mem_singleton] at hj; subst hj; exact hilt
    · show ∀ j ∈ s.rejected ++ [i], thunks.getD j none = none
      intro j hj
      rcases List.mem_append.mp hj with hj | hj
      · exact h.rejected_none j hj
      · rw [List.mem_singleton] at hj; subst hj; exact hget
    · show s.next = (s.inflight.erase i).length + s.fulfilled.length +
        (s.rejected ++ [i]).length
      have hc := h.count_eq
      rw [herase_len, List.length_append, List.length_singleton]
      omega
    · exact h.notok_count
    · show (s.inflight.erase i).length ≤ L
      have hl := h.inflight_len
      omega
    · show ∀ j, j < s.next →
        j ∈ s.inflight.erase i ∨ j ∈ s.fulfilled ∨ j ∈ s.rejected ++ [i]
      intro j hj
      rcases h.cover j hj with hc | hc | hc
      · by_cases hji : j = i
        · subst hji
          exact Or.inr (Or.inr (List.mem_append.mpr (Or.inr (by simp))))
        · exact Or.inl ((List.mem_erase_of_ne hji).mpr hc)
      · exact Or.inr (Or.inl hc)
      · exact Or.inr (Or.inr (List.mem_append.mpr (Or.inl hc)))
  · -- fulfillment: the continuation calls runNext
    unfold runNext
    by_cases hnext : s.next = thunks.length
    · rw [if_pos (by simpa using hnext)]
      refine ⟨?_, ?_, ?_, ?_, ?_, ?_, ?_, ?_, ?_, ?_⟩
      · exact h.next_le
      · exact h.resolved_eq
      · intro _; exact hnext
      · exact fun j hj => h.inflight_lt j (herase_sub j hj)
      · exact h.rejected_lt
      · exact h.rejected_none
      · show s.next = (s.inflight.erase i).length + (s.fulfilled ++ [i]).length +
          s.rejected.length
        have hc := h.count_eq
        rw [herase_len, List.length_append, List.length_singleton]
        omega
      · intro hfalse; exact absurd hfalse (by simp)
      · show (s.inflight.erase i).length ≤ L
        have hl := h.inflight_len
        omega
      · show ∀ j, j < s.next →
          j ∈ s.inflight.erase i ∨ j ∈ s.fulfilled ++ [i] ∨ j ∈ s.rejected
        intro j hj
        rcases h.cover j hj with hc | hc | hc
        · by_cases hji : j = i
          · subst hji
            exact Or.inr (Or.inl (List.mem_append.mpr (Or.inr (by simp))))
          · exact Or.inl ((List.mem_erase_of_ne hji).mpr hc)
        · exact Or.inr (Or.inl (List.mem_append.mpr (Or.inl hc)))
        · exact Or.inr (Or.inr hc)
    · rw [if_neg (by simpa using hnext)]
      have hlt : s.next < thunks.length := lt_of_le_of_ne h.next_le hnext
      refine ⟨?_, ?_, ?_, ?_, ?_, ?_, ?_, ?_, ?_, ?_⟩
      · show s.next + 1 ≤ thunks.length
        omega
      · show s.resolved ++ [s.next] = List.range (s.next + 1)
        rw [h.resolved_eq, List.range_succ]
      · intro hok
        exact absurd (h.ok_next hok) hnext
      · show ∀ j ∈ s.inflight.erase i ++ [s.next], j < s.next + 1
        intro j hj
        rcases List.mem_append.mp hj with hj | hj
        · exact lt_trans (h.inflight_lt j (herase_sub j hj)) (by omega)
        · rw [List.mem_singleton] at hj; omega
      · show ∀ j ∈ s.rejected, j < s.next + 1
        exact fun j hj => lt_trans (h.rejected_lt j hj) (by omega)
      · exact h.rejected_none
      · show s.next + 1 = (s.inflight.erase i ++ [s.next]).length +
          (s.fulfilled ++ [i]).length + s.rejected.length
        have hc := h.count_eq
        rw [List.length_append, List.length_append, herase_len, List.length_singleton,
          List.length_singleton]
        omega
      · show s.okCalled = false →
          s.next + 1 = min L thunks.length + (s.fulfilled ++ [i]).length
        intro hok
        have hn := h.notok_count hok
        rw [List.length_append, List.length_singleton]
        omega
      · show (s.inflight.erase i ++ [s.next]).length ≤ L
        rw [List.length_append, herase_len, List.length_singleton]
        have hl := h.inflight_len
        omega
      · show ∀ j, j < s.next + 1 →
          j ∈ s.inflight.erase i ++ [s.next] ∨ j ∈ s.fulfilled ++ [i] ∨ j ∈ s.rejected
        intro j hj
        by_cases hjn : j = s.next
        · subst hjn
          exact Or.inl (List.mem_append.mpr (Or.inr (by simp)))
        · rcases h.cover j (by omega) with hc | hc | hc
          · by_cases hji : j = i
            · subst hji
              exact Or.inr (Or.inl (List.mem_append.mpr (Or.inr (by simp))))
            · exact Or.inl (List.mem_append.mpr (Or.inl ((List.mem_erase_of_ne hji).mpr hc)))
          · exact Or.inr (Or.inl (List.mem_append.mpr (Or.inl hc)))
          · exact Or.inr (Or.inr hc)

theorem poolInv_runPool {A : Type} (thunks : Thunks A) (L : ℕ) (sched : List ℕ) :
    PoolInv thunks L (runPool thunks L sched) :=
  foldl_settle_inv thunks (PoolInv thunks L)
    (fun s i hs => poolInv_settle thunks L s i hs) sched _ (poolInv_init thunks L)

theorem thunksOf_getD {A : Type} :
    ∀ (vals : List A) (i : ℕ), (thunksOf vals).getD i none = vals.get? i
  | [], _ => by simp [thunksOf]
  | v :: vs, 0 => by simp [thunksOf]
  | v :: vs, (i + 1) => by simpa [thunksOf] using thunksOf_getD vs i

theorem range_map_get {A : Type} :
    ∀ l : List A, (List.range l.length).map (fun i => l.get? i) = l.map some
  | [] => by simp
  | a :: l => by
      rw [List.length_cons, List.range_succ_eq_map, List.map_cons, List.map_map,
        List.map_cons]
      refine congrArg₂ List.cons (by simp) ?_
      have hc : ((fun i => (a :: l).get? i) ∘ Nat.succ) = fun i => l.get? i := by
        funext i; simp
      rw [hc, range_map_get l]

theorem reduceOption_map_some {A : Type} : ∀ l : List A, (l.map some).reduceOption = l
  | [] => by simp
  | a :: l => by simp [reduceOption_map_some l]

theorem recover_values {A : Type} (vals : List A) :
    ((List.range vals.length).map (fun i => (thunksOf vals).getD i none)).reduceOption
      = vals := by
  have h1 : (fun i => (thunksOf vals).getD i none) = fun i => vals.get? i :=
    funext (thunksOf_getD vals)
  rw [h1, range_map_get vals, reduceOption_map_some]

theorem rejected_nil_of_thunksOf {A : Type} (vals : List A) (L : ℕ) (s : PoolState)
    (h : PoolInv (thunksOf vals) L s) : s.rejected = [] := by
  rcases hr : s.rejected with _ | ⟨j, rest⟩
  · rfl
  · exfalso
    have hj : j ∈ s.rejected := by rw [hr]; simp
    have hlt : j < s.next := h.rejected_lt j hj
    have hlen : j < vals.length := by
      have := h.next_le
      simp only [thunksOf, List.length_map] at this
      omega
    have hnone := h.rejected_none j hj
    rw [thunksOf_getD] at hnone
    have := List.get?_eq_none.mp hnone
    omega

/-- Claim C3 (status: confirmed). For every thunk list and every explicitly
passed limit `L` with `1 ≤ L ≤ N`, at every instant of every run — i.e.
after every completion schedule, hence after every prefix of any schedule —
the number of launched but unsettled operations is at most `L`. -/
theorem inflight_bounded_by_limit (A : Type) (thunks : Thunks A) (L cpus : ℕ)
    (h1 : 1 ≤ L) (h2 : L ≤ thunks.length) (sched : List ℕ) :
    (promiseAllConcurrent thunks (some (L : ℚ)) cpus sched).inflight.length ≤ L := by
  unfold promiseAllConcurrent
  have hres : ⌊resolveLimit (some (L : ℚ)) cpus⌋₊ = L := by
    show ⌊if (L : ℚ) = 0 then defaultConcurrency cpus else (L : ℚ)⌋₊ = L
    have hne : ¬((L : ℚ) = 0) := by
      intro heq
      have : L = 0 := by exact_mod_cast heq
      omega
    rw [if_neg hne]
    exact Nat.floor_natCast L
  rw [hres]
  exact (poolInv_runPool thunks L sched).inflight_len

/-- Witness for C3 at a concrete input. -/
theorem inflight_bounded_by_limit_witness :
    1 ≤ 2 ∧ 2 ≤ (thunksOf ([5, 6, 7] : List ℕ)).length ∧
      (promiseAllConcurrent (thunksOf ([5, 6, 7] : List ℕ)) (some (2 : ℚ)) 8
          [1, 0]).inflight.length ≤ 2 :=
  ⟨by decide, by decide,
    inflight_bounded_by_limit ℕ (thunksOf [5, 6, 7]) 2 8 (by decide) (by decide) [1, 0]⟩

/-- Claim C4 counterexample. As stated the claim quantifies over every list
of operations that all succeed, which includes the empty list; the
specification elsewhere even asserts that the empty run resolves
immediately.  In the code the empty run launches nothing, no fulfillment
handler ever fires, and `ok` is never called: under no completion schedule
does the runner ever complete or return the (empty) result list. -/
theorem empty_run_never_delivers : neverDelivers ([] : Thunks ℕ) 3 := by
  intro sched
  exact poolResult_none_of_not_ok _
    (okCalled_false_of_all_none (by intro o ho; simp at ho) 3 sched)

/-- Claim C4 (status: corrected, amended to non-empty lists). For every
non-empty list of operations that all succeed and every limit `L ≥ 1`:
whatever the runner delivers under any completion schedule is exactly the
value list in input order, delivery happens only once every operation has
settled, and under every schedule that settles everything launched the
runner has delivered that list. -/
theorem nonempty_all_success_ordered_delivery {A : Type} (vals : List A) (L : ℕ)
    (h1 : 1 ≤ L) (h2 : vals ≠ []) : OrderedDeliverySpec vals L := by
  have hN : 0 < vals.length := List.length_pos.mpr h2
  constructor
  · intro sched r hr
    have hinv := poolInv_runPool (thunksOf vals) L sched
    set s := runPool (thunksOf vals) L sched with hsdef
    have hrej : s.rejected = [] := rejected_nil_of_thunksOf vals L s hinv
    cases hok : s.okCalled with
    | false => rw [poolResult_none_of_not_ok _ hok] at hr; cases hr
    | true =>
        have hnext : s.next = (thunksOf vals).length := hinv.ok_next hok
        have hresolved : s.resolved = List.range vals.length := by
          rw [hinv.resolved_eq, hnext]; simp [thunksOf]
        cases hall : s.resolved.all (fun i => i ∈ s.fulfilled) with
        | false => simp [poolResult, hok, hrej, hall] at hr
        | true =>
            have hrval : r = some vals := by
              have : poolResult (thunksOf vals) s =
                  some (some ((s.resolved.map
                    (fun i => (thunksOf vals).getD i none)).reduceOption)) := by
                simp [poolResult, hok, hrej, hall]
              rw [this] at hr
              have hv : ((s.resolved.map
                  (fun i => (thunksOf vals).getD i none)).reduceOption) = vals := by
                rw [hresolved]; exact recover_values vals
              rw [hv] at hr
              exact (Option.some_injective _ hr).symm
            refine ⟨hrval, ?_⟩
            intro i hi
            have hmem : i ∈ s.resolved := by
              rw [hresolved]; exact List.mem_range.mpr hi
            have := List.all_eq_true.mp hall i hmem
            simpa using this
  · intro sched hempty
    have hinv := poolInv_runPool (thunksOf vals) L sched
    set s := runPool (thunksOf vals) L sched with hsdef
    have hrej : s.rejected = [] := rejected_nil_of_thunksOf vals L s hinv
    cases hok : s.okCalled with
    | false =>
        exfalso
        have hcount := hinv.count_eq
        have hnotok := hinv.notok_count hok
        rw [hempty, hrej] at hcount
        simp only [List.length_nil] at hcount
        simp only [thunksOf, List.length_map] at hnotok
        omega
    | true =>
        have hnext : s.next = (thunksOf vals).length := hinv.ok_next hok
        have hresolved : s.resolved = List.range vals.length := by
          rw [hinv.resolved_eq, hnext]; simp [thunksOf]
        have hall : s.resolved.all (fun i => i ∈ s.fulfilled) = true := by
          rw [List.all_eq_true]
          intro x hx
          have hxlt : x < s.next := by
            rw [hnext]
            simp only [thunksOf, List.length_map]
            rw [hresolved] at hx
            exact List.mem_range.mp hx
          rcases hinv.cover x hxlt with hc | hc | hc
          · rw [hempty] at hc; cases hc
          · simpa using hc
          · rw [hrej] at hc; cases hc
        unfold poolResult
        rw [hok, if_pos rfl, if_pos hrej, hall, if_pos rfl, hresolved, recover_values]

/-- Witness for the amended C4 at a concrete input, including a concrete
delivering run. -/
theorem nonempty_all_success_ordered_delivery_witness :
    (1 ≤ 1 ∧ ([7, 8] : List ℕ) ≠ []) ∧
      poolResult (thunksOf ([7, 8] : List ℕ))
        (runPool (thunksOf ([7, 8] : List ℕ)) 1 [0, 1]) = some (some [7, 8]) :=
  ⟨⟨by decide, by decide⟩,
    (nonempty_all_success_ordered_delivery ([7, 8] : List ℕ) 1 (by decide)
      (by decide)).2 [0, 1] (by decide)⟩

/-- Claim C7 (status: confirmed). When the runner is called without a
concurrency limit, the limit used is `max(2, cpus / 2)`; consequently the
initial launch burst is the first `min ⌊max 2 (cpus / 2)⌋ N` operations. -/
theorem default_limit_policy (cpus : ℕ) (thunks : Thunks ℕ) :
    resolveLimit none cpus = max 2 ((cpus : ℚ) / 2) ∧
      (promiseAllConcurrent thunks none cpus []).next =
        min ⌊max 2 ((cpus : ℚ) / 2)⌋₊ thunks.length :=
  ⟨rfl, rfl⟩

/-! ## Properties of the tarball extractor -/

theorem extract_cons (e : TarEntry) (rest : List TarEntry) (p : String) :
    extractFileFromTarball (e :: rest) p =
      if e.path == p then e.data ++ extractFileFromTarball rest p
      else extractFileFromTarball rest p := rfl

/-- Claim C8 (status: confirmed). For every parsed archive: when no entry
matches the requested path the extractor returns empty bytes (not an
error — the function is total on parsed archives), and when exactly one
entry matches (the situation presupposed by speaking of "that entry") it
returns exactly that entry's bytes. -/
theorem extract_entry_bytes (entries : List TarEntry) (p : String) :
    (entries.filter (fun t => t.path == p) = [] → extractFileFromTarball entries p = []) ∧
    (∀ e, entries.filter (fun t => t.path == p) = [e] →
      extractFileFromTarball entries p = e.data) := by
  induction entries with
  | nil =>
      refine ⟨fun _ => rfl, fun e h => ?_⟩
      simp at h
  | cons a rest ih =>
      cases hap : a.path == p with
      | true =>
          refine ⟨?_, ?_⟩
          · intro hf
            rw [List.filter_cons, hap] at hf
            simp at hf
          · intro e hf
            rw [List.filter_cons, hap] at hf
            simp only [if_true] at hf
            rw [List.cons_eq_cons] at hf
            rcases hf with ⟨hae, hrest⟩
            rw [extract_cons, hap, if_pos rfl, ih.1 hrest, ← hae]
            simp
      | false =>
          refine ⟨?_, ?_⟩
          · intro hf
            rw [List.filter_cons, hap] at hf
            simp only [Bool.false_eq_true, if_false] at hf
            rw [extract_cons, hap]
            simpa using ih.1 hf
          · intro e hf
            rw [List.filter_cons, hap] at hf
            simp only [Bool.false_eq_true, if_false] at hf
            rw [extract_cons, hap]
            simpa using ih.2 e hf

/-- Witness for C8 on the demonstration archive of the specification. -/
theorem extract_entry_bytes_witness :
    extractFileFromTarball demoArchive "package/package.json" = demoPackageJsonBytes ∧
      extractFileFromTarball demoArchive "package/missing.js" = [] :=
  ⟨(extract_entry_bytes demoArchive "package/package.json").2
      ⟨"package/package.json", demoPackageJsonBytes⟩ (by decide),
   (extract_entry_bytes demoArchive "package/missing.js").1 (by decide)⟩

/-! ## Properties of the package configuration -/

theorem getProp_objSet_self :
    ∀ (o : List (String × PackageRule)) (k : String) (v : PackageRule),
      getProp (objSet o k v) k = some v
  | [], k, v => by simp [objSet, getProp]
  | (k', v') :: rest, k, v => by
      by_cases hk : k' = k
      · simp [objSet, hk, getProp]
      · have hne : (k' == k) = false := beq_eq_false_iff_ne.mpr hk
        simp only [objSet, if_neg hk]
        simpa [getProp, hne] using getProp_objSet_self rest k v

theorem objKeys_objSet_of_not_mem :
    ∀ (o : List (String × PackageRule)) (k : String) (v : PackageRule),
      k ∉ objKeys o → objKeys (objSet o k v) = objKeys o ++ [k]
  | [], k, v, _ => by simp [objSet, objKeys]
  | (k', v') :: rest, k, v, h => by
      have hk : k' ≠ k := by
        intro he
        exact h (by simp [objKeys, he])
      have hrest : k ∉ objKeys rest := by
        intro hr
        exact h (by simp [objKeys] at hr ⊢; exact Or.inr hr)
      simp only [objSet, if_neg hk, objKeys, List.map_cons]
      rw [show (objSet rest k v).map Prod.fst = objKeys (objSet rest k v) from rfl,
        objKeys_objSet_of_not_mem rest k v hrest]
      simp [objKeys]

theorem mem_objKeys_objSet :
    ∀ (o : List (String × PackageRule)) (k : String) (v : PackageRule) (x : String),
      x ∈ objKeys (objSet o k v) → x ∈ objKeys o ∨ x = k
  | [], k, v, x, h => by
      simp [objSet, objKeys] at h
      exact Or.inr h
  | (k', v') :: rest, k, v, x, h => by
      by_cases hk : k' = k
      · simp only [objSet, if_pos hk, objKeys, List.map_cons] at h
        rcases List.mem_cons.mp h with h | h
        · exact Or.inr h
        · exact Or.inl (by simp [objKeys]; exact Or.inr (by simpa [objKeys] using h))
      · simp only [objSet, if_neg hk, objKeys, List.map_cons] at h
        rcases List.mem_cons.mp h with h | h
        · exact Or.inl (by simp [objKeys, h])
        · rcases mem_objKeys_objSet rest k v x (by simpa [objKeys] using h) with h' | h'
          · exact Or.inl (by simp [objKeys]; exact Or.inr (by simpa [objKeys] using h'))
          · exact Or.inr h'

theorem mem_objKeys_hideFold :
    ∀ (masks : List String) (o : List (String × PackageRule)) (x : String),
      x ∈ objKeys (masks.foldl (fun acc mask => objSet acc mask allOpenNoProxy) o) →
        x ∈ objKeys o ∨ x ∈ masks
  | [], o, x, h => Or.inl (by simpa using h)
  | m :: ms, o, x, h => by
      rcases mem_objKeys_hideFold ms (objSet o m allOpenNoProxy) x (by simpa using h)
        with h' | h'
      · rcases mem_objKeys_objSet o m allOpenNoProxy x h' with h'' | h''
        · exact Or.inl h''
        · exact Or.inr (by simp [h''])
      · exact Or.inr (by simp [h'])

/-- Claim C9 (status: confirmed). In the serve-phase package configuration
the catch-all mask `**` is always bound to the upstream-proxy rule — the
assignment performed last overwrites any user-supplied `**` hide mask, so
hiding has no effect for that mask — and when the user did not supply `**`
the catch-all key moreover sits last in the configuration's key order. -/
theorem catch_all_overrides_hide_mask (masks : List String) :
    getProp (finalPackageConfig masks) "**" = some catchAllProxyRule ∧
      ("**" ∉ masks → (objKeys (finalPackageConfig masks)).getLast? = some "**") := by
  constructor
  · exact getProp_objSet_self _ "**" catchAllProxyRule
  · intro hnm
    have hbase : "**" ∉ objKeys
        (masks.foldl (fun acc mask => objSet acc mask allOpenNoProxy) []) := by
      intro hmem
      rcases mem_objKeys_hideFold masks [] "**" hmem with h | h
      · simp [objKeys] at h
      · exact hnm h
    unfold finalPackageConfig
    rw [objKeys_objSet_of_not_mem _ _ _ hbase]
    exact List.getLast?_concat _

/-- Witness for C9 at a concrete hide mask. -/
theorem catch_all_overrides_hide_mask_witness :
    getProp (finalPackageConfig ["@corp/*"]) "**" = some catchAllProxyRule ∧
      (objKeys (finalPackageConfig ["@corp/*"])).getLast? = some "**" :=
  ⟨(catch_all_overrides_hide_mask ["@corp/*"]).1,
    (catch_all_overrides_hide_mask ["@corp/*"]).2 (by decide)⟩

/-! ## Properties of the orchestration trace -/

theorem countP_publish_reg (ts : List TarballInfo) (p : OrchEvent → Bool)
    (hp : ∀ f, p (OrchEvent.publishTarball f) = false) :
    (publishPhaseBody ts).countP p = 0 := by
  induction ts with
  | nil => rfl
  | cons t ts ih => simp [publishPhaseBody, List.countP_cons, hp, ih]

theorem filter_publish_reg (ts : List TarballInfo) :
    (publishPhaseBody ts).filter regEvent = [] := by
  induction ts with
  | nil => rfl
  | cons t ts ih => simp [publishPhaseBody, List.filter_cons, regEvent, isListen, isCloseEv]

theorem block_listen_count (c : VerdaccioConfig) (port : ℕ) (mid : List OrchEvent)
    (h : mid.countP isListen = 0) :
    (runVerdaccioTrace c port mid).countP isListen = 1 := by
  simp [runVerdaccioTrace, List.countP_append, List.countP_cons, h, isListen]

theorem block_close_count (c : VerdaccioConfig) (port : ℕ) (mid : List OrchEvent)
    (h : mid.countP isCloseEv = 0) :
    (runVerdaccioTrace c port mid).countP isCloseEv = 1 := by
  simp [runVerdaccioTrace, List.countP_append, List.countP_cons, h, isCloseEv]

theorem prefix_bound_of_le_one (t : List OrchEvent) (h : t.countP isListen ≤ 1) (k : ℕ) :
    (t.take k).countP isListen ≤ (t.take k).countP isCloseEv + 1 := by
  have h1 : (t.take k).countP isListen ≤ t.countP isListen :=
    (List.take_sublist k t).countP_le _
  omega

theorem prefix_bound_append (t₁ t₂ : List OrchEvent)
    (h₁ : ∀ k, (t₁.take k).countP isListen ≤ (t₁.take k).countP isCloseEv + 1)
    (hbal : t₁.countP isListen ≤ t₁.countP isCloseEv)
    (h₂ : ∀ k, (t₂.take k).countP isListen ≤ (t₂.take k).countP isCloseEv + 1)
    (k : ℕ) :
    ((t₁ ++ t₂).take k).countP isListen ≤ ((t₁ ++ t₂).take k).countP isCloseEv + 1 := by
  rw [List.take_append_eq_append_take, List.countP_append, List.countP_append]
  by_cases hk : k ≤ t₁.length
  · have h0 : k - t₁.length = 0 := Nat.sub_eq_zero_of_le hk
    rw [h0]
    simp only [List.take_zero, List.countP_nil]
    have := h₁ k
    omega
  · push_neg at hk
    rw [List.take_of_length_le (le_of_lt hk)]
    have ha := h₂ (k - t₁.length)
    omega

/-- Claim C5 (status: confirmed). In every orchestrator run, after every
prefix of the event trace the number of listens exceeds the number of
closes by at most one — at most one registry listener is bound at any
instant — and the subsequence of listener events is exactly an alternation
in which the publish-phase close precedes the serve-phase listen on the
same port. -/
theorem at_most_one_listener (tarballs : List TarballInfo) (hideUpstream : List String)
    (hideTarballs : Bool) (port : ℕ) (tempDir : String) (logFile : Option String)
    (verbose : Bool) (logLevel : String) (publishOk actionOk : Bool) :
    (∀ k, ((runWithServerTrace tarballs hideUpstream hideTarballs port tempDir logFile
          verbose logLevel publishOk actionOk).take k).countP isListen ≤
        ((runWithServerTrace tarballs hideUpstream hideTarballs port tempDir logFile
          verbose logLevel publishOk actionOk).take k).countP isCloseEv + 1) ∧
    (runWithServerTrace tarballs hideUpstream hideTarballs port tempDir logFile verbose
        logLevel publishOk actionOk).filter regEvent =
      (if 0 < tarballs.length then
        (if publishOk then
          [OrchEvent.listen (makeVerdaccioConfig tempDir logFile verbose logLevel
              packagesWithoutUpstream) port,
           OrchEvent.close (makeVerdaccioConfig tempDir logFile verbose logLevel
              packagesWithoutUpstream) port,
           OrchEvent.listen (makeVerdaccioConfig tempDir logFile verbose logLevel
              (finalPackageConfig (packagesToHideOf hideUpstream hideTarballs tarballs)))
              port,
           OrchEvent.close (makeVerdaccioConfig tempDir logFile verbose logLevel
              (finalPackageConfig (packagesToHideOf hideUpstream hideTarballs tarballs)))
              port]
         else
          [OrchEvent.listen (makeVerdaccioConfig tempDir logFile verbose logLevel
              packagesWithoutUpstream) port,
           OrchEvent.close (makeVerdaccioConfig tempDir logFile verbose logLevel
              packagesWithoutUpstream) port])
       else
        [OrchEvent.listen (makeVerdaccioConfig tempDir logFile verbose logLevel
            (finalPackageConfig (packagesToHideOf hideUpstream hideTarballs tarballs)))
            port,
         OrchEvent.close (makeVerdaccioConfig tempDir logFile verbose logLevel
            (finalPackageConfig (packagesToHideOf hideUpstream hideTarballs tarballs)))
            port]) := by
  have hmidL : ∀ f, isListen (OrchEvent.publishTarball f) = false := fun _ => rfl
  have hmidC : ∀ f, isCloseEv (OrchEvent.publishTarball f) = false := fun _ => rfl
  have hactL : (([OrchEvent.runAction] : List OrchEvent)).countP isListen = 0 := rfl
  have hactC : (([OrchEvent.runAction] : List OrchEvent)).countP isCloseEv = 0 := rfl
  by_cases ht : 0 < tarballs.length
  · cases publishOk with
    | true =>
        have htr : runWithServerTrace tarballs hideUpstream hideTarballs port tempDir
            logFile verbose logLevel true actionOk =
          runVerdaccioTrace (makeVerdaccioConfig tempDir logFile verbose logLevel
              packagesWithoutUpstream) port (publishPhaseBody tarballs) ++
            runVerdaccioTrace (makeVerdaccioConfig tempDir logFile verbose logLevel
              (finalPackageConfig (packagesToHideOf hideUpstream hideTarballs tarballs)))
              port [OrchEvent.runAction] := by
          simp [runWithServerTrace, ht]
        rw [htr]
        constructor
        · intro k
          refine prefix_bound_append _ _ ?_ ?_ ?_ k
          · exact prefix_bound_of_le_one _
              (le_of_eq (block_listen_count _ _ _ (countP_publish_reg _ _ hmidL)))
          · rw [block_listen_count _ _ _ (countP_publish_reg _ _ hmidL),
              block_close_count _ _ _ (countP_publish_reg _ _ hmidC)]
          · exact prefix_bound_of_le_one _ (le_of_eq (block_listen_count _ _ _ hactL))
        · rw [if_pos ht, if_pos rfl]
          simp [runVerdaccioTrace, List.filter_append, List.filter_cons, regEvent,
            isListen, isCloseEv, filter_publish_reg]
    | false =>
        have htr : runWithServerTrace tarballs hideUpstream hideTarballs port tempDir
            logFile verbose logLevel false actionOk =
          runVerdaccioTrace (makeVerdaccioConfig tempDir logFile verbose logLevel
              packagesWithoutUpstream) port (publishPhaseBody tarballs) := by
          simp [runWithServerTrace, ht]
        rw [htr]
        constructor
        · intro k
          exact prefix_bound_of_le_one _
            (le_of_eq (block_listen_count _ _ _ (countP_publish_reg _ _ hmidL))) k
        · rw [if_pos ht, if_neg (by simp)]
          simp [runVerdaccioTrace, List.filter_append, List.filter_cons, regEvent,
            isListen, isCloseEv, filter_publish_reg]
  · have htr : runWithServerTrace tarballs hideUpstream hideTarballs port tempDir
        logFile verbose logLevel publishOk actionOk =
      runVerdaccioTrace (makeVerdaccioConfig tempDir logFile verbose logLevel
          (finalPackageConfig (packagesToHideOf hideUpstream hideTarballs tarballs)))
          port [OrchEvent.runAction] := by
      simp [runWithServerTrace, ht]
    rw [htr]
    constructor
    · intro k
      exact prefix_bound_of_le_one _ (le_of_eq (block_listen_count _ _ _ hactL)) k
    · rw [if_neg ht]
      simp [runVerdaccioTrace, List.filter_append, List.filter_cons, regEvent,
        isListen, isCloseEv]

/-- Claim C10 (status: confirmed). When no tarball was successfully read,
the publish-phase registry lifecycle is skipped entirely: the whole trace is
the single serve-phase lifecycle around the user action, and its
configuration is built from the user-supplied hide masks only. -/
theorem empty_tarballs_skip_publish_phase (hideUpstream : List String)
    (hideTarballs : Bool) (port : ℕ) (tempDir : String) (logFile : Option String)
    (verbose : Bool) (logLevel : String) (publishOk actionOk : Bool) :
    runWithServerTrace [] hideUpstream hideTarballs port tempDir logFile verbose logLevel
        publishOk actionOk =
      [OrchEvent.listen (makeVerdaccioConfig tempDir logFile verbose logLevel
          (finalPackageConfig hideUpstream)) port,
       OrchEvent.runAction,
       OrchEvent.close (makeVerdaccioConfig tempDir logFile verbose logLevel
          (finalPackageConfig hideUpstream)) port] := by
  have hh : packagesToHideOf hideUpstream hideTarballs [] = hideUpstream := by
    cases hideTarballs <;> simp [packagesToHideOf]
  simp [runWithServerTrace, runVerdaccioTrace, hh]

/-! ## Properties of the daemon-mode output -/

/-- Claim C6 counterexample. At a concrete port, process id and working
directory, the parent's standard output contains four newline-terminated
lines — one `export NAME=VALUE` line per configuration variable — not
exactly one line as claimed. -/
theorem daemon_parent_output_four_lines :
    lineCount (daemonParentStdout 4873 12345 "/tmp/serve-npm-tarballs-abc") = 4 ∧
      lineCount (daemonParentStdout 4873 12345 "/tmp/serve-npm-tarballs-abc") ≠ 1 := by
  refine ⟨by decide, ?_⟩
  intro h
  rw [show lineCount (daemonParentStdout 4873 12345 "/tmp/serve-npm-tarballs-abc") = 4
    from by decide] at h
  simp at h

/-- Claim C6 (status: corrected). In daemon mode the parent emits exactly
one message on standard output — the child's newline-joined export
assignments followed by a trailing newline, one `export NAME=VALUE` line
per configuration variable (four in total), including the registry URL
setting — and then disconnects and unrefs the child without waiting for
it. -/
theorem daemon_parent_output_shape (port pid : ℕ) (tempDir : String) :
    daemonParentStdout port pid tempDir =
      String.intercalate "\n" ((npmConfigVars port pid tempDir).map exportLine) ++ "\n" ∧
    (npmConfigVars port pid tempDir).map exportLine =
      ["export npm_config_userconfig=" ++ (tempDir ++ "/.npmrc"),
       "export npm_config_registry=" ++ registryUrl port,
       "export SERVE_NPM_TARBALLS_PID=" ++ toString pid,
       "export SERVE_NPM_TARBALLS_WORKDIR=" ++ tempDir] ∧
    ("npm_config_registry", registryUrl port) ∈ npmConfigVars port pid tempDir ∧
    daemonParentSteps port pid tempDir =
      [DaemonParentStep.forkChild, DaemonParentStep.awaitChildMessage,
       DaemonParentStep.writeStdout (daemonParentStdout port pid tempDir),
       DaemonParentStep.disconnectChild, DaemonParentStep.unrefChild] :=
  ⟨rfl, rfl, by simp [npmConfigVars], rfl⟩

end ServeNpmTarballs
